import Mathlib

/-!
Verification of the story-scraper core: capture-store naming (src/core/utils.ts),
the event ledger and review handlers (src/main/tray.ts), the classifier adapter
(vision module) and the traversal loop (scraper module).

Strings are modelled by Lean `String` / `List Char`; JS `localeCompare` on the
ASCII file keys and date buckets is modelled as code-point lexicographic
comparison; the wall clock and file system are passed in explicitly. Keys are
paths relative to the events directory (`date/file`), exactly as the handlers
compute them via `path.substring(eventsDir.length + 1)`.
-/

namespace SceneScout

abbrev Chars := List Char

/-- Character sanitization from `buildScreenshotPath`:
`username.replace(/[^a-zA-Z0-9_]/g, "_")` applied character-wise. -/
def sanitizeChar (c : Char) : Char :=
  if c.isAlphanum || c == '_' then c else '_'

/-- Sanitization `username.replace(/[^a-zA-Z0-9_]/g, "_")`. -/
def sanitizeAccount (u : Chars) : Chars := u.map sanitizeChar

def pngSuffix : Chars := ['.', 'p', 'n', 'g']

/-- Filename that `buildScreenshotPath` places inside the day directory:
`${sanitizedUsername}_${time}.png`. The time string (from `getTimeString`,
format `HH-MM-SS`) is passed explicitly. -/
def buildScreenshotName (username time : Chars) : Chars :=
  sanitizeAccount username ++ '_' :: time ++ pngSuffix

/-- The `name.lastIndexOf("_")` split from `scanAccountImages`: `none` when the
name has no underscore (the file is skipped), otherwise the pair
(substring before the last underscore, substring after it). The code uses the
first component as the username; the second is the time part. -/
def splitLastUnderscore (name : Chars) : Option (Chars × Chars) :=
  match name.reverse.dropWhile (fun c => c != '_') with
  | [] => none
  | _ :: pre => some (pre.reverse, (name.reverse.takeWhile (fun c => c != '_')).reverse)

/-- How `scanAccountImages` parses one file name: require the `.png` suffix
(otherwise the file is skipped), strip it (`basename(file, ".png")`), then split
at the last underscore. -/
def keyOfFilename (file : Chars) : Option (Chars × Chars) :=
  if pngSuffix.isSuffixOf file then splitLastUnderscore (file.take (file.length - 4))
  else none

/-- The account handle `scanAccountImages` recovers from a file name. -/
def fileUsername (file : Chars) : Option Chars :=
  (keyOfFilename file).map Prod.fst

/-- The `/^\d{4}-\d{2}-\d{2}$/` date-bucket directory check. -/
def dateOk (s : String) : Bool :=
  match s.toList with
  | [y1, y2, y3, y4, h1, m1, m2, h2, d1, d2] =>
      y1.isDigit && y2.isDigit && y3.isDigit && y4.isDigit && h1 == '-' &&
      m1.isDigit && m2.isDigit && h2 == '-' && d1.isDigit && d2.isDigit
  | _ => false

/-- One entry of the on-disk events tree: a date-bucket directory name and a
file name inside it. -/
structure DirEntry where
  date : String
  file : String
deriving DecidableEq

/-- The per-account image record `scanAccountImages` builds; `key` is the path
relative to the events directory (`date/file`), which is what every handler
recovers via `path.substring(eventsDir.length + 1)`. -/
structure AccountImage where
  key : String
  date : String
deriving DecidableEq

def entryKey (e : DirEntry) : String := e.date ++ "/" ++ e.file

def entryImage (e : DirEntry) : AccountImage := ⟨entryKey e, e.date⟩

def entryUsername (e : DirEntry) : Option String :=
  (fileUsername e.file.toList).map List.asString

/-- The map `Record<string, AccountImage[]>` with JS insertion order made explicit. -/
abbrev AccountMap := List (String × List AccountImage)

/-- Insertion `result[username].push(img)`, creating the record field on first use. -/
def addImage : AccountMap → String → AccountImage → AccountMap
  | [], u, img => [(u, [img])]
  | (v, imgs) :: rest, u, img =>
      if v == u then (v, imgs ++ [img]) :: rest
      else (v, imgs) :: addImage rest u img

/-- Processing of one directory entry inside `scanAccountImages`: skip
non-`YYYY-MM-DD` directories, skip files that are not `.png` or have no
underscore, otherwise group the image under the recovered username. -/
def scanStep (m : AccountMap) (e : DirEntry) : AccountMap :=
  if dateOk e.date then
    match entryUsername e with
    | some u => addImage m u (entryImage e)
    | none => m
  else m

/-- Model of `scanAccountImages` over an explicit listing of the events tree. -/
def scanAccountImages (entries : List DirEntry) : AccountMap :=
  entries.foldl scanStep []

/-- Lookup `accounts[username] || []`. -/
def getImages (m : AccountMap) (u : String) : List AccountImage :=
  match m.find? (fun p => p.1 == u) with
  | some p => p.2
  | none => []

/-- All (username, image) pairs of an account map, flattened. -/
def flatPairs (m : AccountMap) : List (String × AccountImage) :=
  m.flatMap (fun p => p.2.map (fun img => (p.1, img)))

/-- The record `ReviewHistoryEntry` from store.ts. -/
structure HistoryEntry where
  timestamp : String
  accounts : List String
  approvedCount : Nat
  rejectedCount : Nat
deriving DecidableEq

/-- The persistent state the ledger handlers read and write: the events tree
(capture store) plus the settings-store sets `reviewedEvents`, `rejectedEvents`,
`hiddenAccounts` and `reviewHistory`. -/
structure Ledger where
  captures : List DirEntry
  reviewed : List String
  rejected : List String
  hidden : List String
  history : List HistoryEntry
deriving DecidableEq

/-- Model of `reviewEventHandler` from tray.ts: add the key to the target set unless it
is already there; the other set is not touched. -/
def reviewEvent (s : Ledger) (key : String) (approved : Bool) : Ledger :=
  if approved then
    if s.reviewed.contains key then s
    else { s with reviewed := s.reviewed ++ [key] }
  else
    if s.rejected.contains key then s
    else { s with rejected := s.rejected ++ [key] }

/-- Loop body of `hideAccountHandler`: push the key onto the (growing)
rejected array and count it, unless it is reviewed or already rejected. -/
def hideStep (reviewed : List String) (acc : List String × Nat) (img : AccountImage) :
    List String × Nat :=
  if reviewed.contains img.key || acc.1.contains img.key then acc
  else (acc.1 ++ [img.key], acc.2 + 1)

/-- Model of `hideAccountHandler` from tray.ts: add the account to `hiddenAccounts`
(unless present), bulk-reject its unreviewed events and return the count. -/
def hideAccount (s : Ledger) (username : String) : Ledger × Nat :=
  let hidden' := if s.hidden.contains username then s.hidden else s.hidden ++ [username]
  let imgs := getImages (scanAccountImages s.captures) username
  let res := imgs.foldl (hideStep s.reviewed) (s.rejected, 0)
  ({ s with hidden := hidden', rejected := res.1 }, res.2)

/-- Model of `unhideAccountHandler` from tray.ts: remove the account from
`hiddenAccounts` and drop every one of its event keys from `rejectedEvents`. -/
def unhideAccount (s : Ledger) (username : String) : Ledger :=
  let userKeys := (getImages (scanAccountImages s.captures) username).map (fun img => img.key)
  { s with hidden := s.hidden.filter (fun a => a != username),
           rejected := s.rejected.filter (fun k => !userKeys.contains k) }

/-- One row of the unreviewed-events listing (`{key, username, date}`; the
`url` field is a fixed function of `key` and is omitted). -/
structure UnrevEvent where
  key : String
  username : String
  date : String
deriving DecidableEq

/-- Code-point lexicographic comparison of character lists; models
`localeCompare` on the ASCII keys and date buckets. -/
def charsLt : Chars → Chars → Bool
  | [], [] => false
  | [], _ :: _ => true
  | _ :: _, [] => false
  | a :: as, b :: bs => if a < b then true else if b < a then false else charsLt as bs

/-- The sort comparator of `getUnreviewedHandler`,
`(a, b) => b.date.localeCompare(a.date) || b.key.localeCompare(a.key)`,
rendered as "a may come before b": descending date, then descending key. -/
def evLe (a b : UnrevEvent) : Bool :=
  charsLt b.date.toList a.date.toList ||
    (b.date == a.date && !charsLt a.key.toList b.key.toList)

/-- The unsorted event list `getUnreviewedHandler` accumulates: skip hidden
accounts, skip keys already reviewed or rejected. -/
def unreviewedRaw (m : AccountMap) (reviewed rejected hidden : List String) :
    List UnrevEvent :=
  m.flatMap (fun p =>
    if hidden.contains p.1 then []
    else p.2.filterMap (fun img =>
      if reviewed.contains img.key || rejected.contains img.key then none
      else some ⟨img.key, p.1, img.date⟩))

/-- Model of `getUnreviewedHandler`: accumulate, then `events.sort(...)` newest first. -/
def unreviewedEvents (s : Ledger) : List UnrevEvent :=
  (unreviewedRaw (scanAccountImages s.captures) s.reviewed s.rejected s.hidden).mergeSort evLe

/-- Model of `key.split("/").pop()`: the part after the last slash. -/
def afterLastSlash (k : Chars) : Chars :=
  (k.reverse.takeWhile (fun c => c != '/')).reverse

/-- Worker for the lazy regex `^(.+?)_\d` of `saveReviewHistory`: `acc` holds
the (reversed) group matched so far; extend it one character at a time until an
underscore followed by a digit comes next. -/
def lazyGo (acc : Chars) : Chars → Option Chars
  | '_' :: d :: rest => if d.isDigit then some acc.reverse else lazyGo ('_' :: acc) (d :: rest)
  | c :: rest => lazyGo (c :: acc) rest
  | [] => none

/-- The match `filename.match(/^(.+?)_\d/)`: the shortest non-empty prefix that is
followed by an underscore and a digit. -/
def lazyAccountMatch : Chars → Option Chars
  | [] => none
  | c :: rest => lazyGo [c] rest

/-- The account `saveReviewHistory` extracts from one ledger key. -/
def histAccountOf (key : String) : Option String :=
  (lazyAccountMatch (afterLastSlash key.toList)).map List.asString

/-- One step of the `Set<string>` accumulation in `saveReviewHistory`
(JS sets preserve insertion order, so `Array.from` is insertion-ordered). -/
def collectStep (acc : List String) (k : String) : List String :=
  match histAccountOf k with
  | some a => if acc.contains a then acc else acc ++ [a]
  | none => acc

/-- The deduplicated account list of a history entry, over
`[...reviewedKeys, ...rejectedKeys]`. -/
def collectAccounts (keys : List String) : List String :=
  keys.foldl collectStep []

/-- Model of `saveReviewHistory` from tray.ts; the ISO timestamp is passed in. -/
def saveReviewHistory (now : String) (s : Ledger) : Ledger :=
  if s.reviewed.length == 0 && s.rejected.length == 0 then s
  else { s with history := s.history ++
    [⟨now, collectAccounts (s.reviewed ++ s.rejected), s.reviewed.length, s.rejected.length⟩] }

/-- The history rotation `handleScan` performs when new events were found:
`saveReviewHistory()` followed by clearing both review sets. -/
def rotateHistory (now : String) (s : Ledger) : Ledger :=
  let s' := saveReviewHistory now s
  { s' with reviewed := [], rejected := [] }

/-- The new-key test of `handleScan`:
`!knownKeysBefore.has(key) && !reviewedBefore.has(key) && !rejectedBefore.has(key)`. -/
def newKeyB (known reviewedB rejectedB : List String) (k : String) : Bool :=
  !known.contains k && !reviewedB.contains k && !rejectedB.contains k

/-- The new-since-last-run count of `handleScan`: the nested loop over
`Object.values(accountsAfter)` incrementing for each new key. -/
def computeNewSince (m : AccountMap) (known reviewedB rejectedB : List String) : Nat :=
  m.foldl (fun n p => p.2.foldl (fun n img =>
    if newKeyB known reviewedB rejectedB img.key then n + 1 else n) n) 0

/-- JS `String.prototype.trim` on character lists. -/
def jsTrim (cs : Chars) : Chars :=
  ((cs.dropWhile Char.isWhitespace).reverse.dropWhile Char.isWhitespace).reverse

/-- JS `toUpperCase` (ASCII range, which is all the prompt asks for). -/
def jsUpper (cs : Chars) : Chars := cs.map Char.toUpper

def yesChars : Chars := ['Y', 'E', 'S']

/-- The verdict `isEventPromotion` derives from the free-text answer of the model:
`text.trim().toUpperCase().startsWith("YES")`. -/
def isEventVerdict (text : String) : Bool :=
  yesChars.isPrefixOf (jsUpper (jsTrim text.toList))

/-- Outcome of the classification attempt for one story item: the classifier
returned a verdict, or it (or the subsequent file write) threw. -/
inductive ClassifyOutcome where
  | ok (isEvent : Bool)
  | threw
deriving DecidableEq

/-- What happens to the temporary capture frame of one item. -/
inductive FrameEffect where
  | saved
  | discarded
deriving DecidableEq

/-- The record `ScanResult` from the scraper module. -/
structure ScanResult where
  storyCount : Nat
  eventCount : Nat
  error : Option String
deriving DecidableEq

/-- One iteration of the `runScraper` story loop, restricted to the counters
and the per-item try/catch: `storyCount++` always happens; on a positive
verdict the frame is renamed into the store and `eventCount++`; on a negative
verdict or a thrown error the frame is unlinked and the loop continues. -/
def storyStep (acc : Nat × Nat × List FrameEffect) (o : ClassifyOutcome) :
    Nat × Nat × List FrameEffect :=
  match o with
  | .ok true => (acc.1 + 1, acc.2.1 + 1, acc.2.2 ++ [.saved])
  | .ok false => (acc.1 + 1, acc.2.1, acc.2.2 ++ [.discarded])
  | .threw => (acc.1 + 1, acc.2.1, acc.2.2 ++ [.discarded])

/-- The `runScraper` traversal over the classification outcomes of one run,
returning the `ScanResult` of a run that reaches the end of the feed. -/
def runScraperModel (outcomes : List ClassifyOutcome) : ScanResult × List FrameEffect :=
  let r := outcomes.foldl storyStep (0, 0, [])
  (⟨r.1, r.2.1, none⟩, r.2.2)

def IDLE_THRESHOLD_SECONDS : Nat := 1800

def AUTO_SCAN_MIN_GAP_MS : Nat := 12600000

/-- Everything `tryAutoScan` reads: the busy flag, the settings store, the
session file, the power monitor and the clock. -/
structure AutoScanState where
  isScanning : Bool
  autoScanEnabled : Bool
  hasSession : Bool
  hasApiKey : Bool
  idleTimeSeconds : Nat
  nowMs : Nat
  lastAutoScanTimeMs : Nat
deriving DecidableEq

/-- Model of `tryAutoScan` from tray.ts: whether a periodic (or resume/unlock) trigger
actually starts `handleScan`. -/
def tryAutoScan (s : AutoScanState) : Bool :=
  if s.isScanning then false
  else if !s.autoScanEnabled then false
  else if !s.hasSession then false
  else if !s.hasApiKey then false
  else if s.idleTimeSeconds > IDLE_THRESHOLD_SECONDS then false
  else if (s.nowMs : Int) - (s.lastAutoScanTimeMs : Int) < (AUTO_SCAN_MIN_GAP_MS : Int) then false
  else true

/-- Fixture: a capture store with one event each for `alice` and `bob` on the
same day, nothing reviewed, rejected or hidden. -/
def sampleLedger : Ledger :=
  ⟨[⟨"2026-02-08", "alice_10-00-00.png"⟩, ⟨"2026-02-08", "bob_11-00-00.png"⟩],
   [], [], [], []⟩

/-- Fixture: a ledger whose only reviewed key has an account handle containing
an underscore followed by a digit. -/
def c3Ledger : Ledger :=
  ⟨[], ["2026-02-08/dj_45_14-30-00.png"], [], [], []⟩

def c1Key : String := "2026-02-08/alice_10-00-00.png"

/-- Fixture: auto-scan trigger state with the user actively present
(zero idle time) and every other gate satisfied. -/
def c2ActiveState : AutoScanState :=
  ⟨false, true, true, true, 0, 20000000, 0⟩

/-- Fixture: the same trigger state but with the system idle for two hours. -/
def c2IdleState : AutoScanState :=
  ⟨false, true, true, true, 7200, 20000000, 0⟩

/-! ### Helper lemmas -/

theorem contains_true_iff {α : Type} [BEq α] [LawfulBEq α] (l : List α) (a : α) :
    l.contains a = true ↔ a ∈ l := by
  simp [List.contains]

theorem contains_false_iff {α : Type} [BEq α] [LawfulBEq α] (l : List α) (a : α) :
    l.contains a = false ↔ a ∉ l := by
  rw [← contains_true_iff l a]
  cases h : l.contains a <;> simp

theorem charsLt_irrefl : ∀ l : Chars, charsLt l l = false
  | [] => rfl
  | a :: as => by simp [charsLt, lt_irrefl, charsLt_irrefl as]

theorem charsLt_trans (a b c : Chars) (h₁ : charsLt a b = true) (h₂ : charsLt b c = true) :
    charsLt a c = true := by
  induction a generalizing b c with
  | nil =>
    cases b with
    | nil => simp [charsLt] at h₁
    | cons bh bt =>
      cases c with
      | nil => simp [charsLt] at h₂
      | cons ch ct => simp [charsLt]
  | cons ah as ih =>
    cases b with
    | nil => simp [charsLt] at h₁
    | cons bh bt =>
      cases c with
      | nil => simp [charsLt] at h₂
      | cons ch ct =>
        by_cases g₁ : ah < bh
        · by_cases g₂ : bh < ch
          · have : ah < ch := lt_trans g₁ g₂
            simp [charsLt, this]
          · by_cases g₃ : ch < bh
            · simp [charsLt, g₂, g₃] at h₂
            · have hbc : bh = ch := le_antisymm (le_of_not_lt g₃) (le_of_not_lt g₂)
              have : ah < ch := hbc ▸ g₁
              simp [charsLt, this]
        · by_cases g₁' : bh < ah
          · simp [charsLt, g₁, g₁'] at h₁
          · have hab : ah = bh := le_antisymm (le_of_not_lt g₁') (le_of_not_lt g₁)
            simp only [charsLt, if_neg g₁, if_neg g₁'] at h₁
            by_cases g₂ : bh < ch
            · have : ah < ch := hab ▸ g₂
              simp [charsLt, this]
            · by_cases g₃ : ch < bh
              · simp [charsLt, g₂, g₃] at h₂
              · have hbc : bh = ch := le_antisymm (le_of_not_lt g₃) (le_of_not_lt g₂)
                simp only [charsLt, if_neg g₂, if_neg g₃] at h₂
                have hrec := ih bt ct h₁ h₂
                rw [hab, hbc]
                simp [charsLt, lt_irrefl, hrec]

theorem charsLt_connex (a b : Chars) (h₁ : charsLt a b = false) (h₂ : charsLt b a = false) :
    a = b := by
  induction a generalizing b with
  | nil =>
    cases b with
    | nil => rfl
    | cons bh bt => simp [charsLt] at h₁
  | cons ah as ih =>
    cases b with
    | nil => simp [charsLt] at h₂
    | cons bh bt =>
      by_cases g₁ : ah < bh
      · simp [charsLt, g₁] at h₁
      · by_cases g₂ : bh < ah
        · simp [charsLt, g₂] at h₂
        · have hab : ah = bh := le_antisymm (le_of_not_lt g₂) (le_of_not_lt g₁)
          simp only [charsLt, if_neg g₁, if_neg g₂] at h₁
          simp only [charsLt, if_neg g₂, if_neg g₁] at h₂
          rw [hab, ih bt h₁ h₂]

theorem charsLt_asymm (a b : Chars) (h : charsLt a b = true) : charsLt b a = false := by
  cases hba : charsLt b a with
  | false => rfl
  | true =>
    have := charsLt_trans a b a h hba
    rw [charsLt_irrefl] at this
    exact absurd this (by simp)

theorem charsLt_negtrans (a b c : Chars) (h₁ : charsLt a b = false) (h₂ : charsLt b c = false) :
    charsLt a c = false := by
  cases hac : charsLt a c with
  | false => rfl
  | true =>
    cases hcb : charsLt c b with
    | true =>
      have := charsLt_trans a c b hac hcb
      rw [h₁] at this
      exact absurd this (by simp)
    | false =>
      have hbc : b = c := charsLt_connex b c h₂ hcb
      rw [← hbc, h₁] at hac
      exact absurd hac (by simp)

theorem toList_inj {a b : String} (h : a.toList = b.toList) : a = b := by
  cases a
  cases b
  simp only [String.toList] at h
  rw [h]

theorem evLe_trans (a b c : UnrevEvent) (h₁ : evLe a b = true) (h₂ : evLe b c = true) :
    evLe a c = true := by
  simp only [evLe, Bool.or_eq_true, Bool.and_eq_true, Bool.not_eq_true', beq_iff_eq]
    at h₁ h₂ ⊢
  rcases h₁ with h₁ | ⟨hd₁, hk₁⟩
  · rcases h₂ with h₂ | ⟨hd₂, hk₂⟩
    · exact Or.inl (charsLt_trans _ _ _ h₂ h₁)
    · exact Or.inl (hd₂ ▸ h₁)
  · rcases h₂ with h₂ | ⟨hd₂, hk₂⟩
    · exact Or.inl (hd₁ ▸ h₂)
    · exact Or.inr ⟨hd₂.trans hd₁, charsLt_negtrans _ _ _ hk₁ hk₂⟩

theorem evLe_total (a b : UnrevEvent) : (evLe a b || evLe b a) = true := by
  simp only [evLe, Bool.or_eq_true, Bool.and_eq_true, Bool.not_eq_true', beq_iff_eq]
  cases h₁ : charsLt b.date.toList a.date.toList with
  | true => exact Or.inl (Or.inl rfl)
  | false =>
    cases h₂ : charsLt a.date.toList b.date.toList with
    | true => exact Or.inr (Or.inl rfl)
    | false =>
      have hd : b.date = a.date := toList_inj (charsLt_connex _ _ h₁ h₂)
      cases h₃ : charsLt a.key.toList b.key.toList with
      | false => exact Or.inl (Or.inr ⟨hd, rfl⟩)
      | true => exact Or.inr (Or.inr ⟨hd.symm, charsLt_asymm _ _ h₃⟩)

theorem review_true_mem (s : Ledger) (k : String) : k ∈ (reviewEvent s k true).reviewed := by
  by_cases h : k ∈ s.reviewed <;> simp [reviewEvent, h]

theorem review_false_reviewed_eq (s : Ledger) (k : String) :
    (reviewEvent s k false).reviewed = s.reviewed := by
  by_cases h : k ∈ s.rejected <;> simp [reviewEvent, h]

theorem review_false_mem (s : Ledger) (k : String) : k ∈ (reviewEvent s k false).rejected := by
  by_cases h : k ∈ s.rejected <;> simp [reviewEvent, h]

/-! ### Claim theorems -/

/-- C1 counterexample: starting from an empty ledger, `review(k, true)`
followed by `review(k, false)` leaves `k` a member of BOTH the approved and
the rejected sets, so `k` is still a member of the approved set, contradicting
the claimed "last write wins, never both" invariant. -/
theorem claim_C1_counterexample :
    ((reviewEvent (reviewEvent ⟨[], [], [], [], []⟩ c1Key true) c1Key false).reviewed.contains
        c1Key = true) ∧
    ((reviewEvent (reviewEvent ⟨[], [], [], [], []⟩ c1Key true) c1Key false).rejected.contains
        c1Key = true) := by
  decide

/-- C1 amended: `reviewEventHandler` only ever adds a key to the target set and
never removes it from the other, so from any ledger state, `review(k, true)`
followed by `review(k, false)` leaves `k` a member of both the approved and
the rejected sets. -/
theorem claim_C1_review_add_only (s : Ledger) (k : String) :
    k ∈ (reviewEvent (reviewEvent s k true) k false).reviewed ∧
    k ∈ (reviewEvent (reviewEvent s k true) k false).rejected := by
  constructor
  · rw [review_false_reviewed_eq]
    exact review_true_mem s k
  · exact review_false_mem _ k

/-- C2 counterexample: with every other gate satisfied, a periodic trigger
that fires while the user is actively present (idle time 0, below the
30-minute threshold) DOES start a scan, and a trigger that fires after two
hours of idleness is the one that gets suppressed — the opposite of the
claimed gating direction. -/
theorem claim_C2_counterexample :
    tryAutoScan c2ActiveState = true ∧
    c2ActiveState.idleTimeSeconds < IDLE_THRESHOLD_SECONDS ∧
    tryAutoScan c2IdleState = false ∧
    c2IdleState.idleTimeSeconds > IDLE_THRESHOLD_SECONDS := by
  decide

/-- C2 amended: a scan starts from a periodic trigger exactly when no scan is
in progress, auto-scan is enabled, a session and credential are present, the
system idle time is AT MOST the 30-minute threshold (the user is actively
present — long-idle triggers are the suppressed ones), and at least the
3.5-hour minimum gap has passed since the last run. -/
theorem claim_C2_idle_gate_inverted (s : AutoScanState) :
    tryAutoScan s = true ↔
      s.isScanning = false ∧ s.autoScanEnabled = true ∧ s.hasSession = true ∧
      s.hasApiKey = true ∧ s.idleTimeSeconds ≤ IDLE_THRESHOLD_SECONDS ∧
      (s.nowMs : Int) - (s.lastAutoScanTimeMs : Int) ≥ (AUTO_SCAN_MIN_GAP_MS : Int) := by
  obtain ⟨sc, en, se, key, idle, now, last⟩ := s
  cases sc <;> cases en <;> cases se <;> cases key <;> simp [tryAutoScan]

/-- C10: `hideAccountHandler` writes only the hidden-accounts set and the
rejected set: the approved (reviewed) set, the capture store and the review
history are all unchanged. -/
theorem claim_C10_hide_preserves_reviewed (s : Ledger) (a : String) :
    (hideAccount s a).1.reviewed = s.reviewed ∧
    (hideAccount s a).1.captures = s.captures ∧
    (hideAccount s a).1.history = s.history :=
  ⟨rfl, rfl, rfl⟩

theorem isPrefixOf_self_append (l t : Chars) : l.isPrefixOf (l ++ t) = true := by
  rw [List.isPrefixOf_iff_prefix]
  exact List.prefix_append _ _

theorem isSuffixOf_append (l₁ l₂ : Chars) : l₂.isSuffixOf (l₁ ++ l₂) = true := by
  unfold List.isSuffixOf
  rw [List.reverse_append]
  exact isPrefixOf_self_append _ _

theorem take_png (l : Chars) : (l ++ pngSuffix).take ((l ++ pngSuffix).length - 4) = l := by
  have h : (l ++ pngSuffix).length - 4 = l.length := by simp [pngSuffix]
  rw [h, List.take_left]

theorem takeWhile_append_stop (p : Char → Bool) (pre : Chars) (x : Char) (post : Chars)
    (hpre : ∀ c ∈ pre, p c = true) (hx : p x = false) :
    (pre ++ x :: post).takeWhile p = pre ∧ (pre ++ x :: post).dropWhile p = x :: post := by
  induction pre with
  | nil => simp [List.takeWhile_cons, List.dropWhile_cons, hx]
  | cons c cs ih =>
    have hc : p c = true := hpre c (by simp)
    have ihh := ih (fun d hd => hpre d (by simp [hd]))
    simp [List.takeWhile_cons, List.dropWhile_cons, hc, ihh.1, ihh.2]

theorem splitLastUnderscore_append (u t : Chars) (ht : '_' ∉ t) :
    splitLastUnderscore (u ++ '_' :: t) = some (u, t) := by
  have hrev : (u ++ '_' :: t).reverse = t.reverse ++ '_' :: u.reverse := by
    simp
  have hall : ∀ c ∈ t.reverse, (c != '_') = true := by
    intro c hc
    rw [List.mem_reverse] at hc
    simp only [bne_iff_ne, ne_eq]
    exact fun h => ht (h ▸ hc)
  have hx : ((fun c => c != '_') '_') = false := by decide
  have hsplit := takeWhile_append_stop (fun c => c != '_') t.reverse '_' u.reverse hall hx
  unfold splitLastUnderscore
  rw [hrev, hsplit.2, hsplit.1]
  simp

/-- C7: for every account string (whatever characters it contains) and every
capture time without an underscore (the `HH-MM-SS` format has none), parsing
the filename produced by `buildScreenshotPath` splits at the rightmost
underscore and recovers exactly the sanitized account handle and the time. -/
theorem claim_C7_key_roundtrip (account time : Chars) (ht : '_' ∉ time) :
    keyOfFilename (buildScreenshotName account time) =
      some (sanitizeAccount account, time) := by
  have hassoc : buildScreenshotName account time
      = (sanitizeAccount account ++ '_' :: time) ++ pngSuffix := by
    simp [buildScreenshotName]
  unfold keyOfFilename
  rw [hassoc]
  simp only [isSuffixOf_append, if_true, take_png]
  exact splitLastUnderscore_append _ _ ht

/-- C7 witness: a concrete account containing a dot, digits and an inner
underscore round-trips to its sanitized form with the time recovered. -/
theorem claim_C7_key_roundtrip_witness :
    '_' ∉ "14-30-00".toList ∧
    keyOfFilename (buildScreenshotName ("dj.45_x".toList) ("14-30-00".toList)) =
      some (sanitizeAccount ("dj.45_x".toList), "14-30-00".toList) :=
  ⟨by decide, claim_C7_key_roundtrip ("dj.45_x".toList) ("14-30-00".toList) (by decide)⟩

/-- C8: the classifier adapter classifies the frame as an event only when the
trimmed, uppercased answer begins with the affirmation `YES`; the empty string,
whitespace, and any text that does not open with the affirmation — however it
continues — resolve to "not an event" (the fail-safe default is discard). -/
theorem claim_C8_fail_safe :
    (∀ t : String, isEventVerdict t = true →
      (jsUpper (jsTrim t.toList)).take 3 = yesChars) ∧
    isEventVerdict "" = false ∧
    isEventVerdict "   " = false ∧
    isEventVerdict "No" = false ∧
    isEventVerdict "It might be an event" = false ∧
    isEventVerdict "ERROR: malformed output" = false := by
  refine ⟨?_, by decide, by decide, by decide, by decide, by decide⟩
  intro t h
  have hp : yesChars <+: jsUpper (jsTrim t.toList) := List.isPrefixOf_iff_prefix.mp h
  have htake := List.prefix_iff_eq_take.mp hp
  simpa [yesChars] using htake.symm

/-- C8 witness: an affirmative answer with leading whitespace and trailing
text is classified as an event, and its first three normalized characters are
the affirmation. -/
theorem claim_C8_fail_safe_witness :
    isEventVerdict "  Yes, 8pm at the park" = true ∧
    (jsUpper (jsTrim ("  Yes, 8pm at the park".toList))).take 3 = yesChars :=
  ⟨by decide, claim_C8_fail_safe.1 "  Yes, 8pm at the park" (by decide)⟩

theorem runStories_aux (outcomes : List ClassifyOutcome) :
    ∀ (s e : Nat) (fx : List FrameEffect),
      outcomes.foldl storyStep (s, e, fx) =
        (s + outcomes.length,
         e + outcomes.countP (fun o => decide (o = ClassifyOutcome.ok true)),
         fx ++ outcomes.map (fun o =>
           if o = ClassifyOutcome.ok true then FrameEffect.saved else FrameEffect.discarded)) := by
  induction outcomes with
  | nil => intro s e fx; simp
  | cons o rest ih =>
    intro s e fx
    cases o with
    | ok b =>
      cases b <;>
        simp [storyStep, ih, List.countP_cons] <;> omega
    | threw =>
      simp [storyStep, ih, List.countP_cons]
      omega

/-- C9: per-item classifier failures never escape the traversal loop: for every
sequence of per-item outcomes, the run completes with `story_count` equal to
the number of items (failed items included), `event_count` equal to the number
of successfully classified positives only, no run-level error, and the frame
of every thrown or negative item discarded; in particular, a 5-item run whose
third item throws still processes all 5 items with no error. -/
theorem claim_C9_per_item_failures_contained :
    (∀ outcomes : List ClassifyOutcome,
      runScraperModel outcomes =
        (⟨outcomes.length,
          (outcomes.filter (fun o => decide (o = ClassifyOutcome.ok true))).length,
          none⟩,
         outcomes.map (fun o =>
           if o = ClassifyOutcome.ok true then FrameEffect.saved else FrameEffect.discarded))) ∧
    runScraperModel [.ok true, .ok false, .threw, .ok true, .ok false] =
      (⟨5, 2, none⟩,
       [.saved, .discarded, .discarded, .saved, .discarded]) := by
  constructor
  · intro outcomes
    simp [runScraperModel, runStories_aux, List.countP_eq_length_filter]
  · decide

theorem mem_collect_aux (keys : List String) :
    ∀ (acc : List String) (a : String),
      a ∈ keys.foldl collectStep acc ↔
        a ∈ acc ∨ ∃ k ∈ keys, histAccountOf k = some a := by
  induction keys with
  | nil =>
    intro acc a
    simp
  | cons k rest ih =>
    intro acc a
    rw [List.foldl_cons, ih]
    cases hk : histAccountOf k with
    | none =>
      simp only [collectStep, hk, List.mem_cons]
      constructor
      · rintro (h | ⟨k', hk', h'⟩)
        · exact Or.inl h
        · exact Or.inr ⟨k', Or.inr hk', h'⟩
      · rintro (h | ⟨k', hk' | hk', h'⟩)
        · exact Or.inl h
        · rw [hk'] at h'
          rw [hk] at h'
          exact absurd h' (by simp)
        · exact Or.inr ⟨k', hk', h'⟩
    | some b =>
      simp only [collectStep, hk, List.mem_cons]
      by_cases hb : b ∈ acc
      · rw [if_pos ((contains_true_iff acc b).mpr hb)]
        constructor
        · rintro (h | ⟨k', hk', h'⟩)
          · exact Or.inl h
          · exact Or.inr ⟨k', Or.inr hk', h'⟩
        · rintro (h | ⟨k', hk' | hk', h'⟩)
          · exact Or.inl h
          · rw [hk'] at h'
            rw [hk] at h'
            exact Or.inl (Option.some.inj h' ▸ hb)
          · exact Or.inr ⟨k', hk', h'⟩
      · rw [if_neg (fun hc => hb ((contains_true_iff acc b).mp hc))]
        simp only [List.mem_append, List.mem_singleton]
        constructor
        · rintro ((h | h) | ⟨k', hk', h'⟩)
          · exact Or.inl h
          · exact Or.inr ⟨k, Or.inl rfl, by rw [hk, h]⟩
          · exact Or.inr ⟨k', Or.inr hk', h'⟩
        · rintro (h | ⟨k', hk' | hk', h'⟩)
          · exact Or.inl (Or.inl h)
          · rw [hk'] at h'
            rw [hk] at h'
            exact Or.inl (Or.inr (Option.some.inj h').symm)
          · exact Or.inr ⟨k', hk', h'⟩

theorem save_cond_false (s : Ledger) (h : ¬(s.reviewed = [] ∧ s.rejected = [])) :
    (s.reviewed.length == 0 && s.rejected.length == 0) = false := by
  by_cases h1 : s.reviewed = []
  · by_cases h2 : s.rejected = []
    · exact absurd ⟨h1, h2⟩ h
    · simp [List.length_eq_zero, h1, h2]
  · simp [List.length_eq_zero, h1]

/-- C3 counterexample: a reviewed key whose account handle contains an
underscore followed by a digit (`dj_45`). The history entry built by
`saveReviewHistory` records the account as `dj` (the lazy regex `^(.+?)_\d`
matches the shortest prefix), while `keyOf` (`scanAccountImages`) recovers
`dj_45` from the same filename by splitting at the rightmost underscore — so
the account set of the entry is NOT the union of the keyOf-recovered handles. -/
theorem claim_C3_counterexample :
    (rotateHistory "2026-02-09T00:00:00Z" c3Ledger).history =
      [⟨"2026-02-09T00:00:00Z", ["dj"], 1, 0⟩] ∧
    fileUsername ("dj_45_14-30-00.png".toList) = some ("dj_45".toList) ∧
    ("dj" : String) ≠ "dj_45" := by
  decide

/-- C3 amended: when the reviewed or rejected set is non-empty, the rotation
appends exactly one entry whose accounts are the handles recovered by the lazy
regex `^(.+?)_\d` (the shortest filename prefix preceding an underscore
followed by a digit — this agrees with the handle `keyOf` recovers only when
the handle contains no underscore immediately followed by a digit), whose
counts equal the sizes of the two sets; both sets are cleared afterwards, and
when both sets are empty no entry is appended. -/
theorem claim_C3_history_accounts_by_lazy_regex (now : String) (s : Ledger) :
    (¬(s.reviewed = [] ∧ s.rejected = []) →
      ∃ e : HistoryEntry,
        (rotateHistory now s).history = s.history ++ [e] ∧
        (∀ a : String, a ∈ e.accounts ↔
          ∃ k ∈ s.reviewed ++ s.rejected, histAccountOf k = some a) ∧
        e.approvedCount = s.reviewed.length ∧
        e.rejectedCount = s.rejected.length) ∧
    ((s.reviewed = [] ∧ s.rejected = []) → (rotateHistory now s).history = s.history) ∧
    (rotateHistory now s).reviewed = [] ∧
    (rotateHistory now s).rejected = [] := by
  refine ⟨?_, ?_, rfl, rfl⟩
  · intro hne
    refine ⟨⟨now, collectAccounts (s.reviewed ++ s.rejected),
      s.reviewed.length, s.rejected.length⟩, ?_, ?_, rfl, rfl⟩
    · show (saveReviewHistory now s).history = _
      unfold saveReviewHistory
      rw [save_cond_false s hne]
      simp
    · intro a
      rw [collectAccounts, mem_collect_aux]
      simp
  · rintro ⟨h1, h2⟩
    show (saveReviewHistory now s).history = _
    unfold saveReviewHistory
    simp [h1, h2]

/-- C3 witness: the amended rotation behaviour at a concrete non-empty state. -/
theorem claim_C3_history_accounts_witness :
    ¬(c3Ledger.reviewed = [] ∧ c3Ledger.rejected = []) ∧
    ∃ e : HistoryEntry,
      (rotateHistory "t0" c3Ledger).history = c3Ledger.history ++ [e] ∧
      (∀ a : String, a ∈ e.accounts ↔
        ∃ k ∈ c3Ledger.reviewed ++ c3Ledger.rejected, histAccountOf k = some a) ∧
      e.approvedCount = c3Ledger.reviewed.length ∧
      e.rejectedCount = c3Ledger.rejected.length :=
  ⟨by decide, (claim_C3_history_accounts_by_lazy_regex "t0" c3Ledger).1 (by decide)⟩

theorem foldl_count {β : Type} (p : β → Bool) (l : List β) :
    ∀ n : Nat, l.foldl (fun n x => if p x then n + 1 else n) n = n + l.countP p := by
  induction l with
  | nil => intro n; simp
  | cons x rest ih =>
    intro n
    cases hp : p x with
    | false => simp [hp, ih, List.countP_cons]
    | true =>
      simp [hp, ih, List.countP_cons]
      omega

theorem newSince_aux (known rB rjB : List String) :
    ∀ (m : AccountMap) (n : Nat),
      m.foldl (fun n p => p.2.foldl (fun n img =>
        if newKeyB known rB rjB img.key then n + 1 else n) n) n
      = n + (m.flatMap (fun p => p.2)).countP (fun img => newKeyB known rB rjB img.key) := by
  intro m
  induction m with
  | nil => intro n; simp
  | cons q rest ih =>
    intro n
    rw [List.foldl_cons, foldl_count, ih]
    simp [List.countP_append]
    omega

theorem newKeyB_eq_decide (known rB rjB : List String) (k : String) :
    newKeyB known rB rjB k = decide (k ∉ known ∧ k ∉ rB ∧ k ∉ rjB) := by
  by_cases h1 : k ∈ known <;> by_cases h2 : k ∈ rB <;> by_cases h3 : k ∈ rjB <;>
    simp [newKeyB, h1, h2, h3]

/-- C6: the new-since-last-run count of `handleScan` equals the number of
post-run keys absent from all three prior snapshots (known, reviewed,
rejected); in particular, with prior known keys containing only the alice event,
a post-run store containing the alice and bob events, and empty prior review
sets, the count is 1. -/
theorem claim_C6_new_since (m : AccountMap) (known reviewedB rejectedB : List String) :
    computeNewSince m known reviewedB rejectedB =
      (((m.flatMap (fun p => p.2)).map (fun img => img.key)).filter
        (fun k => decide (k ∉ known ∧ k ∉ reviewedB ∧ k ∉ rejectedB))).length ∧
    computeNewSince (scanAccountImages sampleLedger.captures)
      ["2026-02-08/alice_10-00-00.png"] [] [] = 1 := by
  constructor
  · unfold computeNewSince
    rw [newSince_aux, Nat.zero_add]
    rw [← List.countP_eq_length_filter, List.countP_map]
    simp only [newKeyB_eq_decide]
    rfl
  · decide

theorem hideFold (reviewed rej₀ : List String) :
    ∀ (imgs : List AccountImage) (r : List String) (c : Nat),
      (imgs.map (fun i => i.key)).Nodup →
      (∀ i ∈ imgs, (i.key ∈ r ↔ i.key ∈ rej₀)) →
      (imgs.foldl (hideStep reviewed) (r, c)).2 =
        c + imgs.countP (fun i => !reviewed.contains i.key && !rej₀.contains i.key) := by
  intro imgs
  induction imgs with
  | nil =>
    intro r c _ _
    simp
  | cons img rest ih =>
    intro r c hnd hiff
    have hnd0 : (img.key :: rest.map (fun i => i.key)).Nodup := by simpa using hnd
    have hnd' : (rest.map (fun i => i.key)).Nodup := (List.nodup_cons.mp hnd0).2
    have hnotmem : img.key ∉ rest.map (fun i => i.key) := (List.nodup_cons.mp hnd0).1
    by_cases hrev : img.key ∈ reviewed
    · have hstep : hideStep reviewed (r, c) img = (r, c) := by simp [hideStep, hrev]
      rw [List.foldl_cons, hstep,
        ih r c hnd' (fun i hi => hiff i (List.mem_cons_of_mem _ hi))]
      simp [List.countP_cons, hrev]
    · by_cases hr : img.key ∈ r
      · have hstep : hideStep reviewed (r, c) img = (r, c) := by simp [hideStep, hr]
        have hmem : img.key ∈ rej₀ := (hiff img (by simp)).mp hr
        rw [List.foldl_cons, hstep,
          ih r c hnd' (fun i hi => hiff i (List.mem_cons_of_mem _ hi))]
        simp [List.countP_cons, hmem]
      · have hstep : hideStep reviewed (r, c) img = (r ++ [img.key], c + 1) := by
          simp [hideStep, hrev, hr]
        have hnotrej : img.key ∉ rej₀ := fun hmem => hr ((hiff img (by simp)).mpr hmem)
        have hiff' : ∀ i ∈ rest, (i.key ∈ r ++ [img.key] ↔ i.key ∈ rej₀) := by
          intro i hi
          have hne : i.key ≠ img.key := by
            intro he
            exact hnotmem (he ▸ List.mem_map_of_mem (fun i => i.key) hi)
          rw [List.mem_append, List.mem_singleton]
          constructor
          · rintro (h | h)
            · exact (hiff i (List.mem_cons_of_mem _ hi)).mp h
            · exact absurd h hne
          · intro h
            exact Or.inl ((hiff i (List.mem_cons_of_mem _ hi)).mpr h)
        rw [List.foldl_cons, hstep, ih (r ++ [img.key]) (c + 1) hnd' hiff']
        simp [List.countP_cons, hrev, hnotrej]
        omega

/-- C5: `hideAccount(a)` returns a rejected-count equal to the number of events
of `a` that were unreviewed (in neither set) immediately before the call, and
`hideAccount(a)` followed by `unhideAccount(a)` leaves every event of `a` that
was unreviewed before the hide in neither set again. The hypothesis that the event keys
of `a` are pairwise distinct holds for any real directory listing (a
directory never lists the same file twice). -/
theorem claim_C5_hide_unhide (s : Ledger) (a : String)
    (hnd : ((getImages (scanAccountImages s.captures) a).map (fun i => i.key)).Nodup) :
    (hideAccount s a).2 =
      ((getImages (scanAccountImages s.captures) a).filter
        (fun i => decide (i.key ∉ s.reviewed ∧ i.key ∉ s.rejected))).length ∧
    ∀ img ∈ getImages (scanAccountImages s.captures) a,
      img.key ∉ s.reviewed → img.key ∉ s.rejected →
        img.key ∉ (unhideAccount (hideAccount s a).1 a).reviewed ∧
        img.key ∉ (unhideAccount (hideAccount s a).1 a).rejected := by
  constructor
  · show (List.foldl (hideStep s.reviewed) (s.rejected, 0)
      (getImages (scanAccountImages s.captures) a)).2 = _
    rw [hideFold s.reviewed s.rejected (getImages (scanAccountImages s.captures) a)
      s.rejected 0 hnd (fun i _ => Iff.rfl), Nat.zero_add]
    have hpt : ∀ i : AccountImage,
        (!s.reviewed.contains i.key && !s.rejected.contains i.key) =
          decide (i.key ∉ s.reviewed ∧ i.key ∉ s.rejected) := by
      intro i
      by_cases h1 : i.key ∈ s.reviewed <;> by_cases h2 : i.key ∈ s.rejected <;>
        simp [h1, h2]
    simp only [hpt, List.countP_eq_length_filter]
  · intro img hmem h₁ h₂
    refine ⟨h₁, ?_⟩
    intro hin
    have hsplit := List.mem_filter.mp hin
    have hk : img.key ∈ (getImages (scanAccountImages s.captures) a).map (fun i => i.key) :=
      List.mem_map_of_mem _ hmem
    have h2' := hsplit.2
    simp only [Bool.not_eq_true'] at h2'
    rw [contains_false_iff] at h2'
    exact h2' hk

/-- C5 witness: hiding `alice` in the two-event fixture rejects exactly her one
unreviewed event, and unhiding restores it to neither set. -/
theorem claim_C5_hide_unhide_witness :
    ((getImages (scanAccountImages sampleLedger.captures) "alice").map
      (fun i => i.key)).Nodup ∧
    ((hideAccount sampleLedger "alice").2 =
      ((getImages (scanAccountImages sampleLedger.captures) "alice").filter
        (fun i => decide (i.key ∉ sampleLedger.reviewed ∧
          i.key ∉ sampleLedger.rejected))).length ∧
    ∀ img ∈ getImages (scanAccountImages sampleLedger.captures) "alice",
      img.key ∉ sampleLedger.reviewed → img.key ∉ sampleLedger.rejected →
        img.key ∉ (unhideAccount (hideAccount sampleLedger "alice").1 "alice").reviewed ∧
        img.key ∉ (unhideAccount (hideAccount sampleLedger "alice").1 "alice").rejected) :=
  ⟨by decide, claim_C5_hide_unhide sampleLedger "alice" (by decide)⟩

theorem flatPairs_cons (q : String × List AccountImage) (rest : AccountMap) :
    flatPairs (q :: rest) = q.2.map (fun img => (q.1, img)) ++ flatPairs rest := by
  simp [flatPairs]

theorem mem_flatPairs_iff (m : AccountMap) (x : String × AccountImage) :
    x ∈ flatPairs m ↔ ∃ p ∈ m, p.1 = x.1 ∧ x.2 ∈ p.2 := by
  unfold flatPairs
  rw [List.mem_flatMap]
  constructor
  · rintro ⟨p, hp, hx⟩
    obtain ⟨img, himg, he⟩ := List.mem_map.mp hx
    refine ⟨p, hp, ?_, ?_⟩
    · rw [← he]
    · rw [← he]
      exact himg
  · rintro ⟨p, hp, h1, h2⟩
    exact ⟨p, hp, List.mem_map.mpr ⟨x.2, h2, by rw [h1]⟩⟩

theorem mem_flatPairs_addImage (m : AccountMap) (u : String) (img : AccountImage)
    (x : String × AccountImage) :
    x ∈ flatPairs (addImage m u img) ↔ x ∈ flatPairs m ∨ x = (u, img) := by
  induction m with
  | nil => simp [addImage, flatPairs]
  | cons q rest ih =>
    obtain ⟨v, imgs⟩ := q
    by_cases hv : v = u
    · have hstep : addImage ((v, imgs) :: rest) u img = (v, imgs ++ [img]) :: rest := by
        simp [addImage, hv]
      rw [hstep, flatPairs_cons, flatPairs_cons]
      simp only [List.map_append, List.mem_append, List.map_cons, List.map_nil,
        List.mem_singleton, hv]
      tauto
    · have hstep : addImage ((v, imgs) :: rest) u img
          = (v, imgs) :: addImage rest u img := by
        simp [addImage, hv]
      rw [hstep, flatPairs_cons, flatPairs_cons]
      simp only [List.mem_append, ih]
      tauto

theorem mem_scan_aux (es : List DirEntry) :
    ∀ (m : AccountMap) (x : String × AccountImage),
      x ∈ flatPairs (es.foldl scanStep m) ↔
        x ∈ flatPairs m ∨
        ∃ e ∈ es, dateOk e.date = true ∧ entryUsername e = some x.1 ∧
          x.2 = entryImage e := by
  induction es with
  | nil =>
    intro m x
    simp
  | cons e rest ih =>
    intro m x
    rw [List.foldl_cons, ih]
    cases hd : dateOk e.date with
    | false =>
      have hstep : scanStep m e = m := by simp [scanStep, hd]
      rw [hstep]
      constructor
      · rintro (h | ⟨e', he', h'⟩)
        · exact Or.inl h
        · exact Or.inr ⟨e', List.mem_cons_of_mem _ he', h'⟩
      · rintro (h | ⟨e', he', hd', hu', hx'⟩)
        · exact Or.inl h
        · rcases List.mem_cons.mp he' with he₀ | he₁
          · subst he₀
            rw [hd] at hd'
            exact absurd hd' (by simp)
          · exact Or.inr ⟨e', he₁, hd', hu', hx'⟩
    | true =>
      cases hu : entryUsername e with
      | none =>
        have hstep : scanStep m e = m := by simp [scanStep, hd, hu]
        rw [hstep]
        constructor
        · rintro (h | ⟨e', he', h'⟩)
          · exact Or.inl h
          · exact Or.inr ⟨e', List.mem_cons_of_mem _ he', h'⟩
        · rintro (h | ⟨e', he', hd', hu', hx'⟩)
          · exact Or.inl h
          · rcases List.mem_cons.mp he' with he₀ | he₁
            · subst he₀
              rw [hu] at hu'
              exact absurd hu' (by simp)
            · exact Or.inr ⟨e', he₁, hd', hu', hx'⟩
      | some u =>
        have hstep : scanStep m e = addImage m u (entryImage e) := by
          simp [scanStep, hd, hu]
        rw [hstep, mem_flatPairs_addImage]
        constructor
        · rintro ((h | hx) | ⟨e', he', h'⟩)
          · exact Or.inl h
          · subst hx
            exact Or.inr ⟨e, List.mem_cons_self e rest, hd, by simpa using hu, rfl⟩
          · exact Or.inr ⟨e', List.mem_cons_of_mem _ he', h'⟩
        · rintro (h | ⟨e', he', hd', hu', hx'⟩)
          · exact Or.inl (Or.inl h)
          · rcases List.mem_cons.mp he' with he₀ | he₁
            · subst he₀
              refine Or.inl (Or.inr ?_)
              have h1 : x.1 = u := by
                rw [hu] at hu'
                exact (Option.some.inj hu').symm
              exact Prod.ext h1 hx'
            · exact Or.inr ⟨e', he₁, hd', hu', hx'⟩

theorem mem_unreviewedRaw (m : AccountMap) (reviewed rejected hidden : List String)
    (ev : UnrevEvent) :
    ev ∈ unreviewedRaw m reviewed rejected hidden ↔
      (ev.username, (⟨ev.key, ev.date⟩ : AccountImage)) ∈ flatPairs m ∧
      ev.username ∉ hidden ∧ ev.key ∉ reviewed ∧ ev.key ∉ rejected := by
  unfold unreviewedRaw
  rw [List.mem_flatMap]
  constructor
  · rintro ⟨p, hp, hev⟩
    by_cases hh : p.1 ∈ hidden
    · simp [hh] at hev
    · rw [if_neg (fun hc => hh ((contains_true_iff _ _).mp hc))] at hev
      obtain ⟨img, himg, hsome⟩ := List.mem_filterMap.mp hev
      cases hb : (reviewed.contains img.key || rejected.contains img.key) with
      | true =>
        rw [if_pos hb] at hsome
        cases hsome
      | false =>
        have h1 : img.key ∉ reviewed :=
          (contains_false_iff _ _).mp (Bool.or_eq_false_iff.mp hb).1
        have h2 : img.key ∉ rejected :=
          (contains_false_iff _ _).mp (Bool.or_eq_false_iff.mp hb).2
        rw [if_neg (fun hc => absurd (hb ▸ hc) (by simp))] at hsome
        have hev' := Option.some.inj hsome
        subst hev'
        exact ⟨(mem_flatPairs_iff m _).mpr ⟨p, hp, rfl, himg⟩, hh, h1, h2⟩
  · rintro ⟨hpair, hh, h1, h2⟩
    obtain ⟨p, hp, hu, himg⟩ := (mem_flatPairs_iff m _).mp hpair
    have hu' : p.1 = ev.username := hu
    refine ⟨p, hp, ?_⟩
    rw [if_neg (fun hc => hh (hu' ▸ (contains_true_iff _ _).mp hc))]
    apply List.mem_filterMap.mpr
    refine ⟨⟨ev.key, ev.date⟩, himg, ?_⟩
    have hb : (reviewed.contains (⟨ev.key, ev.date⟩ : AccountImage).key ||
        rejected.contains (⟨ev.key, ev.date⟩ : AccountImage).key) = false := by
      simp [h1, h2]
    rw [if_neg (fun hc => absurd (hb ▸ hc) (by simp))]
    rw [hu']

theorem mem_unreviewedEvents (s : Ledger) (ev : UnrevEvent) :
    ev ∈ unreviewedEvents s ↔
      (∃ e ∈ s.captures, dateOk e.date = true ∧ entryUsername e = some ev.username ∧
        ev.key = entryKey e ∧ ev.date = e.date) ∧
      ev.username ∉ s.hidden ∧ ev.key ∉ s.reviewed ∧ ev.key ∉ s.rejected := by
  unfold unreviewedEvents
  rw [List.mem_mergeSort, mem_unreviewedRaw]
  unfold scanAccountImages
  rw [mem_scan_aux s.captures [] (ev.username, ⟨ev.key, ev.date⟩)]
  simp only [flatPairs, List.flatMap_nil, List.not_mem_nil, false_or]
  constructor
  · rintro ⟨⟨e, he, hd, hu, hx⟩, hh, h1, h2⟩
    have hx' : (⟨ev.key, ev.date⟩ : AccountImage) = entryImage e := hx
    rw [AccountImage.mk.injEq] at hx'
    exact ⟨⟨e, he, hd, hu, hx'.1, hx'.2⟩, hh, h1, h2⟩
  · rintro ⟨⟨e, he, hd, hu, hk, hdt⟩, hh, h1, h2⟩
    refine ⟨⟨e, he, hd, hu, ?_⟩, hh, h1, h2⟩
    show (⟨ev.key, ev.date⟩ : AccountImage) = entryImage e
    rw [AccountImage.mk.injEq]
    exact ⟨hk, hdt⟩

theorem unreviewedEvents_sorted (s : Ledger) :
    (unreviewedEvents s).Pairwise (fun a b =>
      charsLt b.date.toList a.date.toList = true ∨
        (b.date = a.date ∧ charsLt a.key.toList b.key.toList = false)) := by
  have h := List.sorted_mergeSort evLe_trans evLe_total
    (unreviewedRaw (scanAccountImages s.captures) s.reviewed s.rejected s.hidden)
  refine h.imp ?_
  intro a b hab
  simpa [evLe, Bool.or_eq_true, Bool.and_eq_true, Bool.not_eq_true', beq_iff_eq] using hab

/-- C4: the unreviewed-events listing contains exactly the captured-event rows
— keys derived from a well-formed date bucket and a parseable filename — whose
key is in neither the reviewed nor the rejected set and whose account is not
hidden, and the listing is pairwise ordered descending by date bucket with
descending key as the tie-break (newest first, deterministic). -/
theorem claim_C4_unreviewed_listing (s : Ledger) :
    (∀ ev : UnrevEvent, ev ∈ unreviewedEvents s ↔
      (∃ e ∈ s.captures, dateOk e.date = true ∧ entryUsername e = some ev.username ∧
        ev.key = entryKey e ∧ ev.date = e.date) ∧
      ev.username ∉ s.hidden ∧ ev.key ∉ s.reviewed ∧ ev.key ∉ s.rejected) ∧
    (unreviewedEvents s).Pairwise (fun a b =>
      charsLt b.date.toList a.date.toList = true ∨
        (b.date = a.date ∧ charsLt a.key.toList b.key.toList = false)) :=
  ⟨mem_unreviewedEvents s, unreviewedEvents_sorted s⟩

end SceneScout
